import Mathlib

/-!
Verification of the `shardedmap` Go library.

Shallow embedding of `strmap.go`, `uint64map.go` and `uuidmap.go` from the
`antoniomo/shardedmap` repository, together with proofs about the embedded
operations.

Modelling conventions:
* A Go `map[K]V` is embedded as an association list with insert-replace
  semantics (`mapLookup`, `mapInsert`, `mapErase`), which is the extensional
  behaviour of a Go map.
* A Go `(value, ok)` return pair is embedded as `Option V` (`nil, false` is
  `none`).
* The hash functions `memHashString` and `memHash` live in a file that is not
  part of the sources here; the spec treats them as opaque deterministic
  functions, so every operation takes the hash function as an explicit
  parameter.
* Each shard's `sync.RWMutex` serialises the critical sections; the sequential
  semantics of each public operation is the composition of its critical
  sections run back to back.  The concurrency claim about `LoadOrStore` is
  handled separately by an interleaving semantics of its two critical
  sections (`stepCall` / `run` below).
-/

namespace ShardedMap

/-! ## Go map model: association lists with insert-replace semantics -/

def mapLookup {α β : Type} [DecidableEq α] : List (α × β) → α → Option β
  | [], _ => none
  | (a, b) :: t, k => if a = k then some b else mapLookup t k

def mapInsert {α β : Type} [DecidableEq α] : List (α × β) → α → β → List (α × β)
  | [], k, v => [(k, v)]
  | (a, b) :: t, k, v => if a = k then (k, v) :: t else (a, b) :: mapInsert t k v

def mapErase {α β : Type} [DecidableEq α] : List (α × β) → α → List (α × β)
  | [], _ => []
  | (a, b) :: t, k => if a = k then mapErase t k else (a, b) :: mapErase t k

theorem mapLookup_insert_self {α β : Type} [DecidableEq α]
    (m : List (α × β)) (k : α) (v : β) : mapLookup (mapInsert m k v) k = some v := by
  induction m with
  | nil => simp [mapInsert, mapLookup]
  | cons hd t ih =>
    obtain ⟨a, b⟩ := hd
    by_cases hak : a = k
    · simp [mapInsert, hak, mapLookup]
    · simp [mapInsert, hak, mapLookup, ih]

theorem mapLookup_insert_ne {α β : Type} [DecidableEq α]
    (m : List (α × β)) (k k' : α) (v : β) (hkk : k ≠ k') :
    mapLookup (mapInsert m k v) k' = mapLookup m k' := by
  induction m with
  | nil => simp [mapInsert, mapLookup, hkk]
  | cons hd t ih =>
    obtain ⟨a, b⟩ := hd
    by_cases hak : a = k
    · simp [mapInsert, hak, mapLookup, hkk]
    · simp [mapInsert, hak, mapLookup, ih]

theorem mapLookup_erase_self {α β : Type} [DecidableEq α]
    (m : List (α × β)) (k : α) : mapLookup (mapErase m k) k = none := by
  induction m with
  | nil => simp [mapErase, mapLookup]
  | cons hd t ih =>
    obtain ⟨a, b⟩ := hd
    by_cases hak : a = k
    · simp [mapErase, hak, ih]
    · simp [mapErase, hak, mapLookup, ih]

theorem mapLookup_erase_ne {α β : Type} [DecidableEq α]
    (m : List (α × β)) (k k' : α) (hkk : k ≠ k') :
    mapLookup (mapErase m k) k' = mapLookup m k' := by
  induction m with
  | nil => simp [mapErase]
  | cons hd t ih =>
    obtain ⟨a, b⟩ := hd
    by_cases hak : a = k
    · have hak' : a ≠ k' := by
        intro h
        exact hkk (hak ▸ h ▸ rfl)
      simp [mapErase, hak, mapLookup, hak', ih, hkk]
    · simp [mapErase, hak, mapLookup, ih]

theorem mapErase_of_lookup_none {α β : Type} [DecidableEq α]
    (m : List (α × β)) (k : α) (h : mapLookup m k = none) : mapErase m k = m := by
  induction m with
  | nil => simp [mapErase]
  | cons hd t ih =>
    obtain ⟨a, b⟩ := hd
    by_cases hak : a = k
    · simp [mapLookup, hak] at h
    · simp [mapLookup, hak] at h
      simp [mapErase, hak, ih h]

/-! ## Helper lemmas about `List.set` / `List.getD` used for the shard array -/

theorem getD_set_self {α : Type} (l : List α) (i : Nat) (a d : α)
    (h : i < l.length) : (l.set i a).getD i d = a := by
  induction l generalizing i with
  | nil => simp at h
  | cons hd t ih =>
    cases i with
    | zero => simp [List.set, List.getD]
    | succ n =>
      simp only [List.set, List.getD_cons_succ]
      exact ih n (by simpa using h)

theorem getD_set_ne {α : Type} (l : List α) (i j : Nat) (a d : α)
    (hij : i ≠ j) : (l.set i a).getD j d = l.getD j d := by
  induction l generalizing i j with
  | nil => simp [List.set]
  | cons hd t ih =>
    cases i with
    | zero =>
      cases j with
      | zero => exact absurd rfl hij
      | succ m => simp [List.set]
    | succ n =>
      cases j with
      | zero => simp [List.set]
      | succ m =>
        simp only [List.set, List.getD_cons_succ]
        exact ih n m (fun h => hij (by omega))

theorem set_getD_self {α : Type} (l : List α) (i : Nat) (d : α)
    (h : i < l.length) : l.set i (l.getD i d) = l := by
  induction l generalizing i with
  | nil => simp
  | cons hd t ih =>
    cases i with
    | zero => simp [List.getD]
    | succ n =>
      simp only [List.getD_cons_succ, List.set]
      rw [ih n (by simpa using h)]

/-! ## The `StrMap` variant (strmap.go)

`memHashString` is defined in a repository file that is not among the sources;
the spec treats it as an opaque deterministic function `String → unsigned`, so
it is passed as an explicit parameter to every operation that routes a key. -/

/-- Modelled from the spec: the constant `defaultShards` is declared in a
repository file that is not among the sources here; the spec states that the
reference default shard count is 32. -/
def defaultShards : Nat := 32

structure StrMap (V : Type) where
  shardCount : Nat
  shards : List (List (String × V))

def NewStrMap {V : Type} (shardCount : Int) : StrMap V :=
  let n : Nat := if shardCount ≤ 0 then defaultShards else shardCount.toNat
  { shardCount := n, shards := List.replicate n [] }

def StrMap.shardIndex {V : Type} (memHashString : String → Nat) (sm : StrMap V)
    (key : String) : Nat :=
  memHashString key % sm.shardCount

def StrMap._getShard {V : Type} (memHashString : String → Nat) (sm : StrMap V)
    (key : String) : List (String × V) :=
  sm.shards.getD (sm.shardIndex memHashString key) []

/-- Embedding of `StrMap.Store` from strmap.go: probe under the read lock and return
immediately when the key is present; otherwise take the write lock, re-check,
and only insert when the key is still absent.  Note that a present key is
never overwritten. -/
def StrMap.Store {V : Type} (memHashString : String → Nat) (sm : StrMap V)
    (key : String) (value : V) : StrMap V :=
  let shard := sm._getShard memHashString key
  if (mapLookup shard key).isSome then
    sm
  else if (mapLookup shard key).isSome then
    sm
  else
    { sm with
      shards := sm.shards.set (sm.shardIndex memHashString key)
        (mapInsert shard key value) }

def StrMap.Load {V : Type} (memHashString : String → Nat) (sm : StrMap V)
    (key : String) : Option V :=
  mapLookup (sm._getShard memHashString key) key

/-- Embedding of `StrMap.LoadOrStore` from strmap.go: double-checked locking, collapsed to
its sequential semantics (probe, re-check, insert when still absent).  Returns
the updated map together with the `(actual, loaded)` pair. -/
def StrMap.LoadOrStore {V : Type} (memHashString : String → Nat) (sm : StrMap V)
    (key : String) (value : V) : StrMap V × V × Bool :=
  let shard := sm._getShard memHashString key
  match mapLookup shard key with
  | some actual => (sm, actual, true)
  | none =>
    match mapLookup shard key with
    | some actual => (sm, actual, true)
    | none =>
      ({ sm with
         shards := sm.shards.set (sm.shardIndex memHashString key)
           (mapInsert shard key value) }, value, false)

def StrMap.Delete {V : Type} (memHashString : String → Nat) (sm : StrMap V)
    (key : String) : StrMap V :=
  { sm with
    shards := sm.shards.set (sm.shardIndex memHashString key)
      (mapErase (sm._getShard memHashString key) key) }

/-- One shard's contribution to `Range`: the pairs passed to `f`, in order,
and whether iteration should continue into later shards. -/
def rangeShard {K V : Type} (f : K → V → Bool) : List (K × V) → List (K × V) × Bool
  | [] => ([], true)
  | (k, v) :: t =>
    if f k v then
      let r := rangeShard f t
      ((k, v) :: r.1, r.2)
    else ([(k, v)], false)

def rangeShards {K V : Type} (f : K → V → Bool) : List (List (K × V)) → List (K × V)
  | [] => []
  | s :: rest =>
    let r := rangeShard f s
    if r.2 then r.1 ++ rangeShards f rest else r.1

/-- Embedding of `StrMap.Range` from strmap.go, embedded as the sequence of `(key, value)`
pairs passed to the visitor `f`: shards are visited in slice order, and a
`false` answer from `f` returns from `Range` at once. -/
def StrMap.Range {V : Type} (sm : StrMap V) (f : String → V → Bool) :
    List (String × V) :=
  rangeShards f sm.shards

/-- Structural well-formedness established by `NewStrMap` and preserved by
every operation: a positive shard count matching the length of the shard
slice. -/
def StrMap.WF {V : Type} (sm : StrMap V) : Prop :=
  0 < sm.shardCount ∧ sm.shards.length = sm.shardCount

instance {V : Type} (sm : StrMap V) : Decidable sm.WF := by
  unfold StrMap.WF; infer_instance

/-! ## The `Uint64Map` variant (uint64map.go)

Go `uint64` keys are embedded as `Nat`; the only arithmetic performed on a key
is `key % shardCount`, which never overflows. -/

structure Uint64Map (V : Type) where
  shardCount : Nat
  shards : List (List (Nat × V))

def NewUint64Map {V : Type} (shardCount : Int) : Uint64Map V :=
  let n : Nat := if shardCount ≤ 0 then defaultShards else shardCount.toNat
  { shardCount := n, shards := List.replicate n [] }

def Uint64Map.shardIndex {V : Type} (sm : Uint64Map V) (key : Nat) : Nat :=
  key % sm.shardCount

def Uint64Map._getShard {V : Type} (sm : Uint64Map V) (key : Nat) :
    List (Nat × V) :=
  sm.shards.getD (sm.shardIndex key) []

/-- Embedding of `Uint64Map.Store` from uint64map.go: same early-return shape as
`StrMap.Store` — a present key is never overwritten. -/
def Uint64Map.Store {V : Type} (sm : Uint64Map V) (key : Nat) (value : V) :
    Uint64Map V :=
  let shard := sm._getShard key
  if (mapLookup shard key).isSome then
    sm
  else if (mapLookup shard key).isSome then
    sm
  else
    { sm with
      shards := sm.shards.set (sm.shardIndex key) (mapInsert shard key value) }

def Uint64Map.Load {V : Type} (sm : Uint64Map V) (key : Nat) : Option V :=
  mapLookup (sm._getShard key) key

def Uint64Map.LoadOrStore {V : Type} (sm : Uint64Map V) (key : Nat) (value : V) :
    Uint64Map V × V × Bool :=
  let shard := sm._getShard key
  match mapLookup shard key with
  | some actual => (sm, actual, true)
  | none =>
    match mapLookup shard key with
    | some actual => (sm, actual, true)
    | none =>
      ({ sm with
         shards := sm.shards.set (sm.shardIndex key) (mapInsert shard key value) },
       value, false)

def Uint64Map.Delete {V : Type} (sm : Uint64Map V) (key : Nat) : Uint64Map V :=
  { sm with
    shards := sm.shards.set (sm.shardIndex key) (mapErase (sm._getShard key) key) }

def Uint64Map.Range {V : Type} (sm : Uint64Map V) (f : Nat → V → Bool) :
    List (Nat × V) :=
  rangeShards f sm.shards

/-! ## The `UUIDMap` variant (uuidmap.go)

`type UUID [16]byte` is embedded as a length-16 list of bytes.  `memHash` is
opaque (see above) and passed as a parameter.  Note that this variant routes
with a bitmask, `memHash(key) & (shardCount-1)`, not with `%`, and that its
`Store` overwrites unconditionally. -/

abbrev UUID := { l : List (Fin 256) // l.length = 16 }

structure UUIDMap (V : Type) where
  shardCount : Nat
  shards : List (List (UUID × V))

def NewUUIDMap {V : Type} (shardCount : Int) : UUIDMap V :=
  let n : Nat := if shardCount ≤ 0 then defaultShards else shardCount.toNat
  { shardCount := n, shards := List.replicate n [] }

def UUIDMap.shardIndex {V : Type} (memHash : UUID → Nat) (sm : UUIDMap V)
    (key : UUID) : Nat :=
  memHash key &&& (sm.shardCount - 1)

def UUIDMap._getShard {V : Type} (memHash : UUID → Nat) (sm : UUIDMap V)
    (key : UUID) : List (UUID × V) :=
  sm.shards.getD (sm.shardIndex memHash key) []

/-- Embedding of `UUIDMap.Store` from uuidmap.go: take the write lock and set the entry
unconditionally (unlike the `StrMap`/`Uint64Map` variants). -/
def UUIDMap.Store {V : Type} (memHash : UUID → Nat) (sm : UUIDMap V)
    (key : UUID) (value : V) : UUIDMap V :=
  { sm with
    shards := sm.shards.set (sm.shardIndex memHash key)
      (mapInsert (sm._getShard memHash key) key value) }

def UUIDMap.Load {V : Type} (memHash : UUID → Nat) (sm : UUIDMap V)
    (key : UUID) : Option V :=
  mapLookup (sm._getShard memHash key) key

/-- Embedding of `UUIDMap.LoadOrStore` from uuidmap.go.  The named Go return
values are `(actual interface{}, loaded bool)`.  On the insert path the final
`return actual, loaded` returns the `actual` read by the failed re-check —
Go `nil`, embedded as `none` — not the value just stored; hence the middle
component has type `Option V`, with `some` on the two already-present
paths. -/
def UUIDMap.LoadOrStore {V : Type} (memHash : UUID → Nat) (sm : UUIDMap V)
    (key : UUID) (value : V) : UUIDMap V × Option V × Bool :=
  let shard := sm._getShard memHash key
  match mapLookup shard key with
  | some actual => (sm, some actual, true)
  | none =>
    match mapLookup shard key with
    | some actual => (sm, some actual, true)
    | none =>
      ({ sm with
         shards := sm.shards.set (sm.shardIndex memHash key)
           (mapInsert shard key value) }, none, false)

def UUIDMap.Delete {V : Type} (memHash : UUID → Nat) (sm : UUIDMap V)
    (key : UUID) : UUIDMap V :=
  { sm with
    shards := sm.shards.set (sm.shardIndex memHash key)
      (mapErase (sm._getShard memHash key) key) }

def UUIDMap.Range {V : Type} (sm : UUIDMap V) (f : UUID → V → Bool) :
    List (UUID × V) :=
  rangeShards f sm.shards

/-- A fixed hash for concrete evaluations: every key hashes to 0. -/
def hashZero {K : Type} : K → Nat := fun _ => 0

/-- A concrete 16-byte identifier (all zero bytes) for evaluations. -/
def uuid0 : UUID := ⟨List.replicate 16 0, by decide⟩

/-- Concrete three-shard maps (a shard count that is not a power of two),
used to instantiate the routing-bound theorem. -/
def strMap3 : StrMap Nat := { shardCount := 3, shards := List.replicate 3 [] }

def u64Map3 : Uint64Map Nat := { shardCount := 3, shards := List.replicate 3 [] }

def uuidMap3 : UUIDMap Nat := { shardCount := 3, shards := List.replicate 3 [] }

/-- A concrete two-shard map with three entries, used to instantiate the
`Range` theorem. -/
def strMap2w : StrMap Nat :=
  { shardCount := 2, shards := [[("a", 1)], [("b", 2), ("c", 3)]] }

/-! ## Claim theorems -/

/-- C9: for every integer `n`, construction never signals an error (the
embedded constructor is a total function) and returns a map whose shard slice
has length `n` when `n > 0` and length 32 (the default) when `n ≤ 0`, with
every shard initially empty; the result moreover satisfies the structural
invariant `WF`. -/
theorem claim_C9_new (V : Type) (n : Int) :
    (NewStrMap (V := V) n).WF
    ∧ (NewStrMap (V := V) n).shards
        = List.replicate (if 0 < n then n.toNat else 32) []
    ∧ (NewStrMap (V := V) n).shardCount = (if 0 < n then n.toNat else 32) := by
  by_cases h : n ≤ 0
  · have h2 : ¬ 0 < n := by omega
    refine ⟨⟨?_, ?_⟩, ?_, ?_⟩ <;>
      simp [NewStrMap, StrMap.WF, defaultShards, h, h2]
  · have h2 : 0 < n := by omega
    have h3 : 0 < n.toNat := by omega
    refine ⟨⟨?_, ?_⟩, ?_, ?_⟩ <;>
      simp [NewStrMap, StrMap.WF, defaultShards, h, h2, h3]

/-- C5: for every map with a positive shard count (also counts that are not
powers of two), the routing function of each of the three variants returns an
index below the shard count; determinism is immediate because each
`shardIndex` is a pure function of the key and the shard count. -/
theorem claim_C5_routing_in_bounds {V : Type}
    (memHashString : String → Nat) (memHash : UUID → Nat)
    (smS : StrMap V) (smI : Uint64Map V) (smU : UUIDMap V)
    (hS : 0 < smS.shardCount) (hI : 0 < smI.shardCount)
    (hU : 0 < smU.shardCount) :
    (∀ key, smS.shardIndex memHashString key < smS.shardCount)
    ∧ (∀ key, smI.shardIndex key < smI.shardCount)
    ∧ (∀ key, smU.shardIndex memHash key < smU.shardCount) := by
  refine ⟨fun key => Nat.mod_lt _ hS, fun key => Nat.mod_lt _ hI, fun key => ?_⟩
  calc memHash key &&& (smU.shardCount - 1) ≤ smU.shardCount - 1 :=
        Nat.and_le_right
    _ < smU.shardCount := Nat.sub_lt hU Nat.one_pos

theorem claim_C5_routing_in_bounds_witness :
    strMap3.shardIndex hashZero "k" < strMap3.shardCount
    ∧ u64Map3.shardIndex 5 < u64Map3.shardCount
    ∧ uuidMap3.shardIndex hashZero uuid0 < uuidMap3.shardCount := by
  obtain ⟨hS, hI, hU⟩ :=
    claim_C5_routing_in_bounds hashZero hashZero strMap3 u64Map3 uuidMap3
      (by decide) (by decide) (by decide)
  exact ⟨hS "k", hI 5, hU uuid0⟩

/-- C1 (evaluation at the failing input): on a one-shard `StrMap`,
`Store "a" 1` followed by `Store "a" 2` leaves the original value in place, so
`Load "a"` returns `(1, true)` where the claim requires `(2, true)`:
`StrMap.Store` does not overwrite a present key. -/
theorem claim_C1_store_no_overwrite_eval :
    (((NewStrMap (V := Nat) 1).Store hashZero "a" 1).Store hashZero "a" 2).Load
        hashZero "a" = some 1 := by
  decide

/-- C3 (evaluation at the failing input): on one-shard maps — where routing is
identical — the same `Store k 1; Store k 2; Load k` sequence returns the old
value `1` on `StrMap` but the new value `2` on `UUIDMap`, so the variants
differ behaviourally in `Store`, not only in routing. -/
theorem claim_C3_variants_differ_eval :
    (((NewStrMap (V := Nat) 1).Store hashZero "k" 1).Store hashZero "k" 2).Load
        hashZero "k" = some 1
    ∧ (((NewUUIDMap (V := Nat) 1).Store hashZero uuid0 1).Store hashZero
        uuid0 2).Load hashZero uuid0 = some 2 := by
  exact ⟨by decide, by decide⟩

/-- C6: when `key` is present with value `v1`, `LoadOrStore` returns
`(v1, true)` and the whole map is unchanged. -/
theorem claim_C6_loadOrStore_present {V : Type} (memHashString : String → Nat)
    (sm : StrMap V) (key : String) (v1 v2 : V)
    (h : sm.Load memHashString key = some v1) :
    sm.LoadOrStore memHashString key v2 = (sm, v1, true) := by
  unfold StrMap.Load at h
  unfold StrMap.LoadOrStore
  simp only [h]

theorem claim_C6_loadOrStore_present_witness :
    (strMap3.Store hashZero "a" 7).LoadOrStore hashZero "a" 9
      = (strMap3.Store hashZero "a" 7, 7, true) :=
  claim_C6_loadOrStore_present hashZero (strMap3.Store hashZero "a" 7) "a" 7 9
    (by decide)

/-- Supporting result for C2, not the claim itself: in the `StrMap` variant
(and the identically-shaped `Uint64Map` one), `LoadOrStore` on an absent key
does return `(v, false)` — its insert path is `return value, loaded` — and a
subsequent `Load` of the same key returns `some v`.  The claim nevertheless
fails on the repository because its cited `UUIDMap` variant returns the Go
zero value instead of `v`; see `claim_C2_uuid_loadOrStore_nil_eval`. -/
theorem StrMap_loadOrStore_absent_ok {V : Type} (memHashString : String → Nat)
    (sm : StrMap V) (key : String) (v : V) (hwf : sm.WF)
    (habs : sm.Load memHashString key = none) :
    (sm.LoadOrStore memHashString key v).2 = (v, false)
    ∧ (sm.LoadOrStore memHashString key v).1.Load memHashString key = some v := by
  obtain ⟨hpos, hlen⟩ := hwf
  have hi : sm.shardIndex memHashString key < sm.shards.length := by
    rw [hlen]; exact Nat.mod_lt _ hpos
  unfold StrMap.Load at habs
  unfold StrMap.LoadOrStore
  simp only [habs]
  refine ⟨trivial, ?_⟩
  simp only [StrMap.Load, StrMap._getShard, StrMap.shardIndex]
  simp only [StrMap.shardIndex] at hi
  rw [getD_set_self _ _ _ _ hi]
  exact mapLookup_insert_self _ _ _

theorem StrMap_loadOrStore_absent_ok_example :
    (strMap3.LoadOrStore hashZero "x" 5).2 = (5, false)
    ∧ (strMap3.LoadOrStore hashZero "x" 5).1.Load hashZero "x" = some 5 :=
  StrMap_loadOrStore_absent_ok hashZero strMap3 "x" 5 (by decide) (by decide)

/-- C2 (evaluation at the failing input): on a one-shard `UUIDMap` with the
key absent, `LoadOrStore(k, 5)` does perform the insert — `Load k` afterwards
returns `some 5` — but the pair it returns is `(none, false)`, the embedding
of Go's `(nil, false)`: the insert path of uuidmap.go returns the `actual`
read before the insert instead of the stored value `(v1, false)` required by
the claim. -/
theorem claim_C2_uuid_loadOrStore_nil_eval :
    ((NewUUIDMap (V := Nat) 1).LoadOrStore hashZero uuid0 5).2 = (none, false)
    ∧ ((NewUUIDMap (V := Nat) 1).LoadOrStore hashZero uuid0 5).1.Load hashZero
        uuid0 = some 5 := by
  exact ⟨by decide, by decide⟩

/-- C8: after `Delete key`, `Load key` returns `none` (the embedded form of
`(zeroValue, false)`), whether or not the key was present; and deleting an
absent key leaves the map exactly as it was. -/
theorem claim_C8_delete {V : Type} (memHashString : String → Nat)
    (sm : StrMap V) (key : String) (hwf : sm.WF) :
    (sm.Delete memHashString key).Load memHashString key = none
    ∧ (sm.Load memHashString key = none → sm.Delete memHashString key = sm) := by
  obtain ⟨hpos, hlen⟩ := hwf
  have hi : sm.shardIndex memHashString key < sm.shards.length := by
    rw [hlen]; exact Nat.mod_lt _ hpos
  constructor
  · simp only [StrMap.Delete, StrMap.Load, StrMap._getShard, StrMap.shardIndex]
    simp only [StrMap.shardIndex] at hi
    rw [getD_set_self _ _ _ _ hi]
    exact mapLookup_erase_self _ _
  · intro habs
    unfold StrMap.Load at habs
    simp only [StrMap.Delete]
    rw [mapErase_of_lookup_none _ _ habs]
    unfold StrMap._getShard
    rw [set_getD_self _ _ _ hi]

theorem claim_C8_delete_witness :
    ((strMap3.Store hashZero "a" 7).Delete hashZero "a").Load hashZero "a" = none
    ∧ ((strMap3.Store hashZero "a" 7).Load hashZero "a" = none →
        (strMap3.Store hashZero "a" 7).Delete hashZero "a"
          = strMap3.Store hashZero "a" 7) :=
  claim_C8_delete hashZero (strMap3.Store hashZero "a" 7) "a" (by decide)

/-- Setting the shard that `key` routes to with a shard whose lookups at
`key'` agree with the old shard's does not change `Load key'`. -/
theorem StrMap.load_set_frame {V : Type} (memHashString : String → Nat)
    (sm : StrMap V) (key key' : String) (s' : List (String × V)) (hwf : sm.WF)
    (hs' : mapLookup s' key' = mapLookup (sm._getShard memHashString key) key') :
    StrMap.Load memHashString
      { sm with shards := sm.shards.set (sm.shardIndex memHashString key) s' }
      key'
      = sm.Load memHashString key' := by
  obtain ⟨hpos, hlen⟩ := hwf
  have hi : sm.shardIndex memHashString key < sm.shards.length := by
    rw [hlen]; exact Nat.mod_lt _ hpos
  by_cases hij :
      sm.shardIndex memHashString key = sm.shardIndex memHashString key'
  · simp only [StrMap.Load, StrMap._getShard, StrMap.shardIndex] at hs' ⊢
    simp only [StrMap.shardIndex] at hij hi
    rw [← hij, getD_set_self _ _ _ _ hi, hs', hij]
  · simp only [StrMap.Load, StrMap._getShard, StrMap.shardIndex]
    simp only [StrMap.shardIndex] at hij
    rw [getD_set_ne _ _ _ _ _ hij]

/-- C10: for distinct keys `key ≠ key'` — also when they route to the same
shard — `Store`, `Delete` and `LoadOrStore` on `key` leave `Load key'`
unchanged. -/
theorem claim_C10_frame {V : Type} (memHashString : String → Nat)
    (sm : StrMap V) (key key' : String) (v : V) (hwf : sm.WF)
    (hne : key ≠ key') :
    (sm.Store memHashString key v).Load memHashString key'
        = sm.Load memHashString key'
    ∧ (sm.Delete memHashString key).Load memHashString key'
        = sm.Load memHashString key'
    ∧ ((sm.LoadOrStore memHashString key v).1).Load memHashString key'
        = sm.Load memHashString key' := by
  refine ⟨?_, ?_, ?_⟩
  · unfold StrMap.Store
    by_cases hp : (mapLookup (sm._getShard memHashString key) key).isSome
    · simp only [hp, if_true]
    · simp only [hp, if_false]
      exact StrMap.load_set_frame memHashString sm key key' _ hwf
        (mapLookup_insert_ne _ _ _ _ hne)
  · unfold StrMap.Delete
    exact StrMap.load_set_frame memHashString sm key key' _ hwf
      (mapLookup_erase_ne _ _ _ hne)
  · unfold StrMap.LoadOrStore
    cases hp : mapLookup (sm._getShard memHashString key) key with
    | some actual => simp only [hp]
    | none =>
      simp only [hp]
      exact StrMap.load_set_frame memHashString sm key key' _ hwf
        (mapLookup_insert_ne _ _ _ _ hne)

theorem claim_C10_frame_witness :
    ((strMap3.Store hashZero "b" 2).Store hashZero "a" 1).Load hashZero "b"
        = (strMap3.Store hashZero "b" 2).Load hashZero "b"
    ∧ ((strMap3.Store hashZero "b" 2).Delete hashZero "a").Load hashZero "b"
        = (strMap3.Store hashZero "b" 2).Load hashZero "b"
    ∧ (((strMap3.Store hashZero "b" 2).LoadOrStore hashZero "a" 1).1).Load
          hashZero "b"
        = (strMap3.Store hashZero "b" 2).Load hashZero "b" :=
  claim_C10_frame hashZero (strMap3.Store hashZero "b" 2) "a" "b" 1
    (by decide) (by decide)

/-! ## Range: characterisation of the visit sequence -/

/-- Specification of an early-stopping scan over a flat entry list: visit
entries in order, and the first entry on which `f` answers `false` is the
last one visited. -/
def visitUpToFalse {K V : Type} (f : K → V → Bool) :
    List (K × V) → List (K × V)
  | [] => []
  | (k, v) :: t => if f k v then (k, v) :: visitUpToFalse f t else [(k, v)]

theorem visitUpToFalse_of_all_true {K V : Type} (f : K → V → Bool)
    (l : List (K × V)) (h : ∀ p ∈ l, f p.1 p.2 = true) :
    visitUpToFalse f l = l := by
  induction l with
  | nil => rfl
  | cons hd t ih =>
    obtain ⟨k, v⟩ := hd
    have hk : f k v = true := h (k, v) (List.mem_cons_self _ _)
    simp only [visitUpToFalse, hk, if_true, List.cons.injEq, true_and]
    exact ih fun p hp => h p (List.mem_cons_of_mem _ hp)

theorem visitUpToFalse_append {K V : Type} (f : K → V → Bool)
    (a b : List (K × V)) :
    visitUpToFalse f (a ++ b)
      = if a.all (fun p => f p.1 p.2) then a ++ visitUpToFalse f b
        else visitUpToFalse f a := by
  induction a with
  | nil => simp
  | cons hd t ih =>
    obtain ⟨k, v⟩ := hd
    by_cases hk : f k v
    · have hstep : visitUpToFalse f ((k, v) :: t ++ b)
          = (k, v) :: visitUpToFalse f (t ++ b) := by
        simp [visitUpToFalse, List.cons_append, hk]
      rw [hstep, ih]
      by_cases ht : t.all (fun p => f p.1 p.2)
      · simp [List.all_cons, hk, ht, visitUpToFalse]
      · simp [List.all_cons, hk, ht, visitUpToFalse]
    · simp [visitUpToFalse, hk, List.all_cons, Bool.false_and,
        List.cons_append]

theorem rangeShard_eq {K V : Type} (f : K → V → Bool) (s : List (K × V)) :
    rangeShard f s = (visitUpToFalse f s, s.all (fun p => f p.1 p.2)) := by
  induction s with
  | nil => rfl
  | cons hd t ih =>
    obtain ⟨k, v⟩ := hd
    by_cases hk : f k v
    · simp [rangeShard, visitUpToFalse, hk, ih, List.all_cons]
    · simp [rangeShard, visitUpToFalse, hk, List.all_cons, Bool.false_and]

theorem rangeShards_eq {K V : Type} (f : K → V → Bool)
    (ss : List (List (K × V))) :
    rangeShards f ss = visitUpToFalse f ss.flatten := by
  induction ss with
  | nil => rfl
  | cons s rest ih =>
    simp only [rangeShards, rangeShard_eq, List.flatten_cons, visitUpToFalse_append]
    by_cases hs : s.all (fun p => f p.1 p.2)
    · simp only [hs, if_true, ih, List.append_cancel_left_eq]
      rw [visitUpToFalse_of_all_true]
      intro p hp
      exact List.all_eq_true.mp hs p hp
    · simp [hs]

/-- C7: with no concurrent mutation, `Range` passes to the visitor exactly the
entries of shard 0, then shard 1, and so on, stopping right after the first
entry on which the visitor answers `false`; in particular, when the visitor
always answers `true`, every stored pair is visited exactly once, in shard
order. -/
theorem claim_C7_range {V : Type} (sm : StrMap V) (f : String → V → Bool) :
    sm.Range f = visitUpToFalse f sm.shards.flatten
    ∧ ((∀ p ∈ sm.shards.flatten, f p.1 p.2 = true) →
        sm.Range f = sm.shards.flatten) := by
  refine ⟨rangeShards_eq f sm.shards, fun h => ?_⟩
  rw [StrMap.Range, rangeShards_eq f sm.shards, visitUpToFalse_of_all_true f _ h]

theorem claim_C7_range_witness :
    strMap2w.Range (fun _ _ => true)
        = visitUpToFalse (fun _ _ => true) strMap2w.shards.flatten
    ∧ strMap2w.Range (fun _ _ => true) = strMap2w.shards.flatten :=
  ⟨(claim_C7_range strMap2w (fun _ _ => true)).1,
    (claim_C7_range strMap2w (fun _ _ => true)).2 (by decide)⟩

/-! ## C4: interleaving semantics of racing `LoadOrStore` calls

`N` callers run `LoadOrStore(k, v_i)` concurrently on the same initially
absent key `k`.  Per strmap.go each call consists of two lock-protected
critical sections — the shared-lock probe, and the exclusive-lock re-check
that inserts only when the key is still absent — and the shard's `RWMutex`
makes each critical section atomic with respect to the others.  An execution
is therefore an arbitrary interleaving (`sched`) of these atomic sections.
`slot` is the shard entry for `k` (operations on other keys commute with it,
see `claim_C10_frame`). -/

inductive CallSt (V : Type) where
  | start
  | waiting
  | done (actual : V) (loaded : Bool)
deriving DecidableEq

def CallSt.isDone {V : Type} : CallSt V → Bool
  | .done _ _ => true
  | _ => false

structure RaceState (N : Nat) (V : Type) where
  slot : Option V
  calls : Fin N → CallSt V

/-- One atomic critical section of the `LoadOrStore` double-checked-locking
protocol, for a call whose argument is `value`: the shared-lock probe
(`start`), the exclusive-lock re-check and conditional insert (`waiting`),
and a no-op once the call has returned. -/
def stepCall {V : Type} (value : V) (slot : Option V) :
    CallSt V → Option V × CallSt V
  | .start =>
    match slot with
    | some a => (slot, .done a true)
    | none => (slot, .waiting)
  | .waiting =>
    match slot with
    | some a => (slot, .done a true)
    | none => (some value, .done value false)
  | .done a l => (slot, .done a l)

def step {N : Nat} {V : Type} (vals : Fin N → V) (s : RaceState N V)
    (i : Fin N) : RaceState N V :=
  { slot := (stepCall (vals i) s.slot (s.calls i)).1,
    calls := Function.update s.calls i (stepCall (vals i) s.slot (s.calls i)).2 }

def run {N : Nat} {V : Type} (vals : Fin N → V) (s : RaceState N V) :
    List (Fin N) → RaceState N V
  | [] => s
  | i :: rest => run vals (step vals s i) rest

def initState (N : Nat) (V : Type) : RaceState N V :=
  { slot := none, calls := fun _ => .start }

/-- Execution invariant of the race: while the slot is empty no call has
returned; once the slot holds `w`, a unique call has returned
`(w, loaded := false)` with `w` its own argument, and every call that
returned `loaded := true` saw exactly `w`. -/
def RaceInv {N : Nat} {V : Type} (vals : Fin N → V) (s : RaceState N V) :
    Prop :=
  (s.slot = none → ∀ i, s.calls i = .start ∨ s.calls i = .waiting)
  ∧ ∀ w, s.slot = some w →
      (∃ i, vals i = w ∧ s.calls i = .done w false
        ∧ ∀ j, j ≠ i → ∀ a, s.calls j ≠ .done a false)
      ∧ ∀ j a, s.calls j = .done a true → a = w

theorem raceInv_init {N : Nat} {V : Type} (vals : Fin N → V) :
    RaceInv vals (initState N V) := by
  constructor
  · intro _ i
    exact Or.inl rfl
  · intro w hw
    simp [initState] at hw

theorem raceInv_step {N : Nat} {V : Type} (vals : Fin N → V)
    (s : RaceState N V) (i : Fin N) (h : RaceInv vals s) :
    RaceInv vals (step vals s i) := by
  obtain ⟨hnone, hsome⟩ := h
  cases hslot : s.slot with
  | none =>
    rcases hnone hslot i with hc | hc
    · -- probe finds the slot empty: the call moves to `waiting`
      constructor
      · intro _ j
        by_cases hji : j = i
        · subst hji
          right
          simp [step, stepCall, hslot, hc]
        · rcases hnone hslot j with hj | hj <;>
            simp [step, Function.update_noteq hji, hj]
      · intro w hw
        simp [step, stepCall, hslot, hc] at hw
    · -- re-check finds the slot still empty: the call inserts and wins
      constructor
      · intro hw'
        simp [step, stepCall, hslot, hc] at hw'
      · intro w hw
        simp [step, stepCall, hslot, hc] at hw
        subst hw
        refine ⟨⟨i, rfl, by simp [step, stepCall, hslot, hc], ?_⟩, ?_⟩
        · intro j hji a
          simp [step, stepCall, hslot, hc, Function.update_noteq hji]
          rcases hnone hslot j with hj | hj <;> simp [hj]
        · intro j a
          by_cases hji : j = i
          · subst hji
            simp [step, stepCall, hslot, hc]
          · simp [step, stepCall, hslot, hc, Function.update_noteq hji]
            intro hj
            rcases hnone hslot j with hj' | hj' <;> simp [hj'] at hj
  | some w0 =>
    obtain ⟨⟨i0, hvi0, hci0, huniq⟩, htrue⟩ := hsome w0 hslot
    have hslot' : (step vals s i).slot = some w0 := by
      cases hc : s.calls i <;> simp [step, stepCall, hslot, hc]
    constructor
    · intro hw'
      rw [hslot'] at hw'
      exact absurd hw' (by simp)
    · intro w hw
      rw [hslot'] at hw
      cases Option.some.inj hw
      have hii0 : (step vals s i).calls i0 = .done w0 false := by
        by_cases hi : i = i0
        · subst hi
          simp [step, stepCall, hslot, hci0]
        · simp only [step]
          rw [Function.update_noteq (Ne.symm hi)]
          exact hci0
      refine ⟨⟨i0, hvi0, hii0, ?_⟩, ?_⟩
      · intro j hji a
        by_cases hjieq : j = i
        · subst hjieq
          cases hc : s.calls j with
          | start => simp [step, stepCall, hslot, hc]
          | waiting => simp [step, stepCall, hslot, hc]
          | done b l =>
            have hsame : (step vals s j).calls j = s.calls j := by
              simp [step, stepCall, hslot, hc]
            rw [hsame]
            exact huniq j hji a
        · have hsame : (step vals s i).calls j = s.calls j := by
            simp only [step]
            rw [Function.update_noteq hjieq]
          rw [hsame]
          exact huniq j hji a
      · intro j a
        by_cases hjieq : j = i
        · subst hjieq
          cases hc : s.calls j with
          | start =>
            simp [step, stepCall, hslot, hc]
            exact fun h => h.symm
          | waiting =>
            simp [step, stepCall, hslot, hc]
            exact fun h => h.symm
          | done b l =>
            have hsame : (step vals s j).calls j = s.calls j := by
              simp [step, stepCall, hslot, hc]
            rw [hsame]
            exact htrue j a
        · have hsame : (step vals s i).calls j = s.calls j := by
            simp only [step]
            rw [Function.update_noteq hjieq]
          rw [hsame]
          exact htrue j a

theorem raceInv_run {N : Nat} {V : Type} (vals : Fin N → V)
    (sched : List (Fin N)) (s : RaceState N V) (h : RaceInv vals s) :
    RaceInv vals (run vals s sched) := by
  induction sched generalizing s with
  | nil => exact h
  | cons i rest ih => exact ih _ (raceInv_step vals s i h)

/-- C4: under any interleaving of `N ≥ 1` racing `LoadOrStore` calls on the
same absent key in which every call completes, exactly one call returns
`loaded = false` — storing its own value — and every other call returns
`loaded = true` together with the winner's value. -/
theorem claim_C4_loadOrStore_race {V : Type} (N : Nat) (vals : Fin N → V)
    (sched : List (Fin N)) (hN : 0 < N)
    (hdone : ∀ i, ((run vals (initState N V) sched).calls i).isDone = true) :
    ∃ i : Fin N,
      (run vals (initState N V) sched).calls i = .done (vals i) false
      ∧ ∀ j, j ≠ i →
          (run vals (initState N V) sched).calls j = .done (vals i) true := by
  obtain ⟨hnone, hsome⟩ := raceInv_run vals sched _ (raceInv_init vals)
  cases hslot : (run vals (initState N V) sched).slot with
  | none =>
    exfalso
    have h0 := hdone ⟨0, hN⟩
    rcases hnone hslot ⟨0, hN⟩ with hc | hc <;>
      rw [hc] at h0 <;> simp [CallSt.isDone] at h0
  | some w =>
    obtain ⟨⟨i0, hv, hc, huniq⟩, htrue⟩ := hsome w hslot
    refine ⟨i0, by rw [hc, hv], ?_⟩
    intro j hji
    have hdj := hdone j
    cases hcj : (run vals (initState N V) sched).calls j with
    | start => rw [hcj] at hdj; simp [CallSt.isDone] at hdj
    | waiting => rw [hcj] at hdj; simp [CallSt.isDone] at hdj
    | done a l =>
      cases l with
      | false => exact absurd hcj (huniq j hji a)
      | true =>
        rw [htrue j a hcj, hv]

def raceVals : Fin 2 → Nat := fun i => if i = 0 then 10 else 20

def raceSched : List (Fin 2) := [0, 0, 1, 1]

theorem claim_C4_loadOrStore_race_witness :
    ((0 : Nat) < 2
      ∧ ∀ i, ((run raceVals (initState 2 Nat) raceSched).calls i).isDone = true)
    ∧ ∃ i : Fin 2,
        (run raceVals (initState 2 Nat) raceSched).calls i
            = .done (raceVals i) false
        ∧ ∀ j, j ≠ i →
            (run raceVals (initState 2 Nat) raceSched).calls j
              = .done (raceVals i) true :=
  ⟨⟨by decide, by decide⟩,
    claim_C4_loadOrStore_race 2 raceVals raceSched (by decide) (by decide)⟩

end ShardedMap
